import Mathlib

/-!
Verification of the template-expansion core of `parsibes`: the lexer
(`src/lexer.rs`), the token-tree builder (`src/expansion/tree.rs`), the group
collapser (`src/expansion/groups.rs`) and the chunk-graph builder
(`src/expansion/mod.rs`), shallowly embedded as executable Lean functions.
-/

namespace Parsibes

/-- Lexical token, from `enum Token` in `src/lexer.rs`.  The `number` payload is
an `i64` in the source; it is modelled as `Int` (the lexer only ever produces
values in `[0, 2^63)`, checked at the production site). -/
inductive Token where
  | openParen
  | closeParen
  | openSquare
  | closeSquare
  | comma
  | plus
  | dash
  | semicolon
  | dollar
  | star
  | slash
  | number (n : Int)
  | string (s : String)
deriving DecidableEq, Repr

/-- Translation of the single-character `match` at the end of
`<Lexer as Iterator>::next` in `src/lexer.rs`.  `none` models the
`panic!("unexpected char")` arm. -/
def charToken (c : Char) : Option Token :=
  if c = '(' then some Token.openParen
  else if c = ')' then some Token.closeParen
  else if c = '[' then some Token.openSquare
  else if c = ']' then some Token.closeSquare
  else if c = '-' then some Token.dash
  else if c = '+' then some Token.plus
  else if c = ',' then some Token.comma
  else if c = ';' then some Token.semicolon
  else if c = '$' then some Token.dollar
  else if c = '*' then some Token.star
  else if c = '/' then some Token.slash
  else none

/-- Numeric value of a run of ASCII digits, as computed by
`self.input[..end].parse::<i64>()` in `src/lexer.rs`. -/
def digitsVal (l : List Char) : Nat :=
  l.foldl (fun a c => a * 10 + (c.toNat - 48)) 0

/-- Translation of the lexer loop of `<Lexer as Iterator>::next` collected into
a list (`Lexer::new(input).collect::<Vec<_>>()` in `src/expansion/mod.rs`).
Every iteration consumes at least one character, so the explicit `fuel`
argument (instantiated with the input length by `lex`) never runs out; the
fuel-exhaustion branch is unreachable for the callers in this file.  `none`
models the panics of the Rust lexer (unexpected character, unterminated string
literal, `i64` overflow of a numeric literal). -/
def lexFuel : Nat → List Char → Option (List Token)
  | _, [] => some []
  | 0, _ :: _ => none
  | fuel + 1, c :: rest =>
    if c.isDigit then
      let digits := c :: rest.takeWhile Char.isDigit
      let n := digitsVal digits
      if n < 2 ^ 63 then
        match lexFuel fuel (rest.dropWhile Char.isDigit) with
        | some toks => some (Token.number (Int.ofNat n) :: toks)
        | none => none
      else none
    else if c.isWhitespace then
      lexFuel fuel rest
    else if c = '"' then
      let content := rest.takeWhile (fun x => x ≠ '"')
      match rest.dropWhile (fun x => x ≠ '"') with
      | _ :: rest2 =>
        match lexFuel fuel rest2 with
        | some toks => some (Token.string (String.mk content) :: toks)
        | none => none
      | [] => none
    else
      match charToken c with
      | some t =>
        match lexFuel fuel rest with
        | some toks => some (t :: toks)
        | none => none
      | none => none

/-- Lexing a source string: `Lexer::new(input).collect::<Vec<_>>()`. -/
def lex (input : String) : Option (List Token) :=
  lexFuel input.toList.length input.toList

/-- Token tree, from `enum TokenTree` in `src/expansion/tree.rs`.  A
`repetition` node carries the repeated sub-trees and the optional separator
token (`struct TokenRepetition`). -/
inductive TokenTree where
  | token (tok : Token)
  | repetition (repeated : List TokenTree) (separator : Option Token)
deriving Repr

/-- Scan for the matching closing parenthesis, from the `while depth > 0` loop
of `parse_tokentree` in `src/expansion/tree.rs`.  Returns the number of tokens
scanned, the last one being the closing parenthesis that brings the depth back
to zero; `none` models the `bail!("Unbalanced parentheses")` arm hit when the
input is exhausted first. -/
def depthStep (t : Token) (depth : Nat) : Nat :=
  match t with
  | Token.closeParen => depth - 1
  | Token.openParen => depth + 1
  | _ => depth

def scanClose : List Token → Nat → Option Nat
  | [], _ => none
  | t :: rest, depth =>
    if depthStep t depth = 0 then some 1
    else
      match scanClose rest (depthStep t depth) with
      | some idx => some (idx + 1)
      | none => none

/-- Separator extraction after the closing parenthesis, from the
`match tail.split_first()` block of `parse_tokentree` in
`src/expansion/tree.rs`: a leading `*` means no separator; otherwise the first
token is captured as the separator and the next token must be `*`. -/
def split_separator : List Token → Except String (Option Token × List Token)
  | [] => Except.error "Expected tokens :O"
  | Token.star :: tail => Except.ok (none, tail)
  | sep :: Token.star :: tail => Except.ok (some sep, tail)
  | _ :: _ => Except.error "Expected `*`"

mutual

/-- Translation of `parse_tokentree` in `src/expansion/tree.rs`: parse one
token tree off the front of the input, returning it together with the
remaining tokens.  The recursion is bounded by an explicit `fuel` argument
(the callers below always supply more fuel than the maximal recursion depth,
which is bounded by twice the input length; the fuel-exhaustion branch is
proved unreachable in `parse_fuel_total`). -/
def parse_tokentree_fuel : Nat → List Token → Except String (TokenTree × List Token)
  | 0, _ => Except.error "internal: fuel exhausted"
  | _ + 1, [] => Except.error "Failed to parse a tokentree out of no token at all :/"
  | fuel + 1, tok :: rest =>
    if tok = Token.dollar then
      match rest with
      | Token.openParen :: rest2 =>
        match scanClose rest2 1 with
        | none => Except.error "Unbalanced parentheses"
        | some idx =>
          let inner_tokens := (rest2.take idx).dropLast
          match split_separator (rest2.drop idx) with
          | Except.error e => Except.error e
          | Except.ok (separator, tail) =>
            match parse_forest_fuel fuel inner_tokens with
            | Except.error e => Except.error e
            | Except.ok repeated =>
              Except.ok (TokenTree.repetition repeated separator, tail)
      | _ => Except.error "Expected `(` after the `$`"
    else
      Except.ok (TokenTree.token tok, rest)

/-- Translation of the `while !tokens.is_empty()` loops of `parse_tokenstream`
and of the `repeated` collection inside `parse_tokentree`
(`src/expansion/tree.rs`): parse token trees until the input is exhausted. -/
def parse_forest_fuel : Nat → List Token → Except String (List TokenTree)
  | 0, _ => Except.error "internal: fuel exhausted"
  | _ + 1, [] => Except.ok []
  | fuel + 1, t :: r =>
    match parse_tokentree_fuel fuel (t :: r) with
    | Except.error e => Except.error e
    | Except.ok (tree, rest) =>
      match parse_forest_fuel fuel rest with
      | Except.error e => Except.error e
      | Except.ok trees => Except.ok (tree :: trees)

end

/-- Translation of `parse_tokenstream` in `src/expansion/tree.rs`.  The fuel
`2 * length + 1` strictly dominates the recursion depth of the parser (proved
in `parse_fuel_total`), so the result coincides with the unbounded Rust
recursion. -/
def parse_tokenstream (tokens : List Token) : Except String (List TokenTree) :=
  parse_forest_fuel (2 * tokens.length + 1) tokens

/-- Group, from `enum Group` in `src/expansion/groups.rs`: repetitions are kept
as-is, maximal runs of plain tokens are collapsed into a `simple` group. -/
inductive Group where
  | simple (tokens : List Token)
  | repetition (content : List Group) (separator : Option Token)
deriving Repr

/-- Translation of the loop of `create_groups` in `src/expansion/groups.rs`.
The loop state `(result, current_simple)` is modelled by recursing on the
stream with `current` holding the pending `current_simple` buffer; the emitted
groups are produced in order. -/
def create_groups_go : List TokenTree → List Token → List Group
  | [], current => if current.isEmpty then [] else [Group.simple current]
  | TokenTree.token t :: rest, current => create_groups_go rest (current ++ [t])
  | TokenTree.repetition repeated separator :: rest, current =>
    (if current.isEmpty then [] else [Group.simple current]) ++
      (Group.repetition (create_groups_go repeated []) separator :: create_groups_go rest [])

/-- Translation of `create_groups` in `src/expansion/groups.rs`. -/
def create_groups (stream : List TokenTree) : List Group :=
  create_groups_go stream []

/-- Chunk, from `struct Chunk` in `src/expansion/mod.rs`.  Child chunks are
referenced by identifier; `ChunkId(usize)` is modelled as `Nat`. -/
structure Chunk where
  tokens : List Token
  childs : List Nat
deriving DecidableEq, Repr

/-- Chunk arena, from `struct Chunks` in `src/expansion/mod.rs`: the chunk at
index `i` of `inner` is the chunk with identifier `i` (`Chunks::allocate`
assigns `ChunkId(self.inner.len())` and pushes). -/
structure Chunks where
  inner : List Chunk
  firsts : List Nat
deriving DecidableEq, Repr

/-- Translation of `create_chunks` in `src/expansion/mod.rs`.  The Rust
function iterates over `groups.into_iter().rev()` threading the arena and
`attach_to`; this is modelled by recursing on the group list and processing
the tail (the groups that come later in the template) first, which performs
exactly the same allocations in the same order.  Returns the final arena and
the final `attach_to` (the `Vec<ChunkId> /* First */` return value). -/
def create_chunks (arena : List Chunk) (groups : List Group) (attach_to : List Nat) :
    List Chunk × List Nat :=
  match groups with
  | [] => (arena, attach_to)
  | group :: rest =>
    match create_chunks arena rest attach_to with
    | (arena1, attach1) =>
      match group with
      | Group.simple tokens =>
        (arena1 ++ [Chunk.mk tokens attach1], [arena1.length])
      | Group.repetition content separator =>
        -- With one repetition: chunks attached to the next set of chunks.
        match create_chunks arena1 content attach1 with
        | (arena2, case_one_ids) =>
          match separator with
          | some sep =>
            -- Separator chunk between the first and the second repetition.
            match create_chunks (arena2 ++ [Chunk.mk [sep] case_one_ids]) content
                [arena2.length] with
            | (arena3, case_two_ids) => (arena3, attach1 ++ case_one_ids ++ case_two_ids)
          | none =>
            match create_chunks arena2 content case_one_ids with
            | (arena3, case_two_ids) => (arena3, attach1 ++ case_one_ids ++ case_two_ids)

/-- Translation of `of` in `src/expansion/mod.rs`, starting from an
already-lexed token list: parse the token stream, collapse it into groups,
build the chunks from an empty arena with an empty `attach_to`, and record the
resulting list as `firsts`. -/
def of_tokens (tokens : List Token) : Except String Chunks :=
  match parse_tokenstream tokens with
  | Except.error e => Except.error e
  | Except.ok token_stream =>
    let groups := create_groups token_stream
    let r := create_chunks [] groups []
    Except.ok (Chunks.mk r.1 r.2)

/-- Translation of `of` in `src/expansion/mod.rs` from the source string;
`none` models a lexer panic. -/
def of (input : String) : Option (Except String Chunks) :=
  match lex input with
  | none => none
  | some tokens => some (of_tokens tokens)

/-! Auxiliary predicates and observers used to state the claims. -/

/-- Does a group sequence start with a `simple` group? -/
def headSimple : List Group → Bool
  | Group.simple _ :: _ => true
  | _ => false

/-- Every repetition group in the sequence (recursively) has a body whose
collapsed group sequence starts with a `simple` group, i.e. whose first token
tree is a plain token. -/
def goodGroupList : List Group → Bool
  | [] => true
  | Group.simple _ :: rest => goodGroupList rest
  | Group.repetition content _ :: rest =>
    headSimple content && goodGroupList content && goodGroupList rest

/-- No two adjacent `simple` groups anywhere in the sequence, recursively
inside repetition contents as well. -/
def no_adjacent : List Group → Bool
  | [] => true
  | Group.simple _ :: Group.simple _ :: _ => false
  | Group.simple _ :: rest => no_adjacent rest
  | Group.repetition content _ :: rest => no_adjacent content && no_adjacent rest

/-- Every `simple` group in the sequence (recursively) carries a non-empty
token run. -/
def simples_nonempty : List Group → Bool
  | [] => true
  | Group.simple ts :: rest => !ts.isEmpty && simples_nonempty rest
  | Group.repetition content _ :: rest => simples_nonempty content && simples_nonempty rest

/-- Repetition skeleton: the nesting structure of repetitions together with
their separators, forgetting all plain tokens. -/
inductive Skel where
  | rep (content : List Skel) (separator : Option Token)
deriving Repr

/-- Skeleton of a token-tree sequence. -/
def treesSkel : List TokenTree → List Skel
  | [] => []
  | TokenTree.token _ :: rest => treesSkel rest
  | TokenTree.repetition repeated separator :: rest =>
    Skel.rep (treesSkel repeated) separator :: treesSkel rest

/-- Skeleton of a group sequence. -/
def groupsSkel : List Group → List Skel
  | [] => []
  | Group.simple _ :: rest => groupsSkel rest
  | Group.repetition content separator :: rest =>
    Skel.rep (groupsSkel content) separator :: groupsSkel rest

/-- Flattened token sequence of a token-tree sequence (repetition bodies
inlined, separators not part of the body). -/
def flattenTrees : List TokenTree → List Token
  | [] => []
  | TokenTree.token t :: rest => t :: flattenTrees rest
  | TokenTree.repetition repeated _ :: rest => flattenTrees repeated ++ flattenTrees rest

/-- Flattened token sequence of a group sequence. -/
def flattenGroups : List Group → List Token
  | [] => []
  | Group.simple ts :: rest => ts ++ flattenGroups rest
  | Group.repetition content _ :: rest => flattenGroups content ++ flattenGroups rest

/-- A walk through the chunk graph: a sequence of chunk identifiers in which
each identifier after the first is a child of the chunk stored at the
identifier before it. -/
def isWalk (A : List Chunk) : List Nat → Bool
  | [] => true
  | [_] => true
  | a :: b :: rest =>
    (match A[a]? with
     | some ch => decide (b ∈ ch.childs)
     | none => false) && isWalk A (b :: rest)

/-- The walk ends at a chunk whose child set is empty — it is a complete path
reaching the end of an expansion. -/
def lastChildless (A : List Chunk) (w : List Nat) : Bool :=
  match w.getLast? with
  | some a =>
    match A[a]? with
    | some ch => ch.childs.isEmpty
    | none => false
  | none => false

/-! Defining equations of `create_chunks`, restated as standalone rewrite
lemmas (the function is compiled by well-founded recursion, so these are the
handles all later proofs use). -/

theorem create_chunks_nil (arena : List Chunk) (attach_to : List Nat) :
    create_chunks arena [] attach_to = (arena, attach_to) := by
  simp [create_chunks]

theorem create_chunks_simple (arena : List Chunk) (tokens : List Token) (rest : List Group)
    (attach_to : List Nat) :
    create_chunks arena (Group.simple tokens :: rest) attach_to =
      ((create_chunks arena rest attach_to).1 ++
         [Chunk.mk tokens (create_chunks arena rest attach_to).2],
       [(create_chunks arena rest attach_to).1.length]) := by
  rcases h : create_chunks arena rest attach_to with ⟨arena1, attach1⟩
  simp [create_chunks, h]

theorem create_chunks_rep_some (arena : List Chunk) (content : List Group) (sep : Token)
    (rest : List Group) (attach_to : List Nat) :
    create_chunks arena (Group.repetition content (some sep) :: rest) attach_to =
      ((create_chunks
          ((create_chunks (create_chunks arena rest attach_to).1 content
              (create_chunks arena rest attach_to).2).1 ++
            [Chunk.mk [sep]
              (create_chunks (create_chunks arena rest attach_to).1 content
                (create_chunks arena rest attach_to).2).2])
          content
          [(create_chunks (create_chunks arena rest attach_to).1 content
              (create_chunks arena rest attach_to).2).1.length]).1,
       (create_chunks arena rest attach_to).2 ++
         (create_chunks (create_chunks arena rest attach_to).1 content
            (create_chunks arena rest attach_to).2).2 ++
         (create_chunks
            ((create_chunks (create_chunks arena rest attach_to).1 content
                (create_chunks arena rest attach_to).2).1 ++
              [Chunk.mk [sep]
                (create_chunks (create_chunks arena rest attach_to).1 content
                  (create_chunks arena rest attach_to).2).2])
            content
            [(create_chunks (create_chunks arena rest attach_to).1 content
                (create_chunks arena rest attach_to).2).1.length]).2) := by
  rcases hp : create_chunks arena rest attach_to with ⟨arena1, attach1⟩
  rcases hq : create_chunks arena1 content attach1 with ⟨arena2, one⟩
  rcases hr : create_chunks (arena2 ++ [Chunk.mk [sep] one]) content [arena2.length]
    with ⟨arena3, two⟩
  simp [create_chunks, hp, hq, hr]

theorem create_chunks_rep_none (arena : List Chunk) (content : List Group)
    (rest : List Group) (attach_to : List Nat) :
    create_chunks arena (Group.repetition content none :: rest) attach_to =
      ((create_chunks
          (create_chunks (create_chunks arena rest attach_to).1 content
            (create_chunks arena rest attach_to).2).1
          content
          (create_chunks (create_chunks arena rest attach_to).1 content
            (create_chunks arena rest attach_to).2).2).1,
       (create_chunks arena rest attach_to).2 ++
         (create_chunks (create_chunks arena rest attach_to).1 content
            (create_chunks arena rest attach_to).2).2 ++
         (create_chunks
            (create_chunks (create_chunks arena rest attach_to).1 content
              (create_chunks arena rest attach_to).2).1
            content
            (create_chunks (create_chunks arena rest attach_to).1 content
              (create_chunks arena rest attach_to).2).2).2) := by
  rcases hp : create_chunks arena rest attach_to with ⟨arena1, attach1⟩
  rcases hq : create_chunks arena1 content attach1 with ⟨arena2, one⟩
  rcases hr : create_chunks arena2 content one with ⟨arena3, two⟩
  simp [create_chunks, hp, hq, hr]

/-- During construction the arena only ever grows: `Chunks::allocate` pushes
at the back and nothing is ever removed or mutated. -/
theorem create_chunks_arena_extend (groups : List Group) (arena : List Chunk)
    (attach_to : List Nat) :
    ∃ ext, (create_chunks arena groups attach_to).1 = arena ++ ext := by
  induction arena, groups, attach_to using create_chunks.induct with
  | case1 arena attach_to =>
    exact ⟨[], by simp [create_chunks_nil]⟩
  | case2 arena attach_to rest arena1 attach1 hrest tokens ih =>
    rw [hrest] at ih
    obtain ⟨e1, he1⟩ := ih
    have he1b : arena1 = arena ++ e1 := he1
    refine ⟨e1 ++ [Chunk.mk tokens attach1], ?_⟩
    rw [create_chunks_simple, hrest]
    simp [he1b]
  | case3 arena attach_to rest arena1 attach1 hrest content arena2 one hone sep arena3 two htwo
      ih1 ih2 ih3 =>
    rw [hrest] at ih1
    rw [hone] at ih2
    rw [htwo] at ih3
    obtain ⟨e1, he1⟩ := ih1
    obtain ⟨e2, he2⟩ := ih2
    obtain ⟨e3, he3⟩ := ih3
    have he1b : arena1 = arena ++ e1 := he1
    have he2b : arena2 = arena1 ++ e2 := he2
    have he3b : arena3 = arena2 ++ [Chunk.mk [sep] one] ++ e3 := by
      have := he3
      simpa using this
    refine ⟨e1 ++ (e2 ++ ([Chunk.mk [sep] one] ++ e3)), ?_⟩
    rw [create_chunks_rep_some, hrest]
    simp only [hone, htwo]
    simp [he3b, he2b, he1b]
  | case4 arena attach_to rest arena1 attach1 hrest content arena2 one hone arena3 two htwo
      ih1 ih2 ih3 =>
    rw [hrest] at ih1
    rw [hone] at ih2
    rw [htwo] at ih3
    obtain ⟨e1, he1⟩ := ih1
    obtain ⟨e2, he2⟩ := ih2
    obtain ⟨e3, he3⟩ := ih3
    have he1b : arena1 = arena ++ e1 := he1
    have he2b : arena2 = arena1 ++ e2 := he2
    have he3b : arena3 = arena2 ++ e3 := he3
    refine ⟨e1 ++ (e2 ++ e3), ?_⟩
    rw [create_chunks_rep_none, hrest]
    simp only [hone, htwo]
    simp [he3b, he2b, he1b]

/-- Arena length is monotone under `create_chunks`. -/
theorem create_chunks_le_length (groups : List Group) (arena : List Chunk)
    (attach_to : List Nat) :
    arena.length ≤ (create_chunks arena groups attach_to).1.length := by
  obtain ⟨ext, hext⟩ := create_chunks_arena_extend groups arena attach_to
  simp [hext]

/-- Chunks already allocated are untouched by further construction. -/
theorem create_chunks_getElem_stable (groups : List Group) (arena : List Chunk)
    (attach_to : List Nat) (j : Nat) (hj : j < arena.length) :
    (create_chunks arena groups attach_to).1[j]? = arena[j]? := by
  obtain ⟨ext, hext⟩ := create_chunks_arena_extend groups arena attach_to
  rw [hext, List.getElem?_append_left hj]

/-- Well-formedness invariant of the chunk builder: when every incoming
`attach_to` identifier points into the current arena, every outgoing
identifier points into the final arena, and every chunk allocated during the
call has all its child identifiers strictly below its own identifier. -/
theorem create_chunks_wf (groups : List Group) (arena : List Chunk) (attach_to : List Nat)
    (h : ∀ i ∈ attach_to, i < arena.length) :
    (∀ i ∈ (create_chunks arena groups attach_to).2,
        i < (create_chunks arena groups attach_to).1.length) ∧
    (∀ j ch, (create_chunks arena groups attach_to).1[j]? = some ch →
        arena.length ≤ j → ∀ c ∈ ch.childs, c < j) := by
  induction arena, groups, attach_to using create_chunks.induct with
  | case1 arena attach_to =>
    rw [create_chunks_nil]
    dsimp only
    refine ⟨h, ?_⟩
    intro j ch hja hge
    have := (List.getElem?_eq_some.mp hja).1
    omega
  | case2 arena attach_to rest arena1 attach1 hrest tokens ih =>
    rw [hrest] at ih
    obtain ⟨b1, c1⟩ := ih h
    rw [create_chunks_simple, hrest]
    dsimp only at b1 c1 ⊢
    constructor
    · intro i hi
      simp only [List.mem_singleton] at hi
      simp [hi]
    · intro j ch hja hge c hc
      have hjlt := (List.getElem?_eq_some.mp hja).1
      simp only [List.length_append, List.length_cons, List.length_nil] at hjlt
      rcases Nat.lt_or_ge j arena1.length with hcase | hcase
      · rw [List.getElem?_append_left hcase] at hja
        exact c1 j ch hja hge c hc
      · have hj : j = arena1.length := by omega
        subst hj
        rw [List.getElem?_append_right hcase] at hja
        simp at hja
        subst hja
        exact b1 c hc
  | case3 arena attach_to rest arena1 attach1 hrest content arena2 one hone sep arena3 two htwo
      ih1 ih2 ih3 =>
    rw [hrest] at ih1
    rw [hone] at ih2
    rw [htwo] at ih3
    obtain ⟨b1, c1⟩ := ih1 h
    dsimp only at b1 c1
    obtain ⟨b2, c2⟩ := ih2 b1
    dsimp only at b2 c2
    have hsep : ∀ i ∈ [arena2.length], i < (arena2 ++ [Chunk.mk [sep] one]).length := by
      intro i hi
      simp only [List.mem_singleton] at hi
      simp [hi]
    obtain ⟨b3, c3⟩ := ih3 hsep
    dsimp only at b3 c3
    have l12 : arena1.length ≤ arena2.length := by
      have := create_chunks_le_length content arena1 attach1
      rw [hone] at this
      exact this
    have l23 : arena2.length + 1 ≤ arena3.length := by
      have := create_chunks_le_length content (arena2 ++ [Chunk.mk [sep] one]) [arena2.length]
      rw [htwo] at this
      simpa using this
    have st3 : ∀ j, j < arena2.length + 1 → arena3[j]? = (arena2 ++ [Chunk.mk [sep] one])[j]? := by
      intro j hj
      have := create_chunks_getElem_stable content (arena2 ++ [Chunk.mk [sep] one])
        [arena2.length] j (by simpa using hj)
      rw [htwo] at this
      exact this
    have st2 : ∀ j, j < arena1.length → arena2[j]? = arena1[j]? := by
      intro j hj
      have := create_chunks_getElem_stable content arena1 attach1 j hj
      rw [hone] at this
      exact this
    rw [create_chunks_rep_some, hrest]
    dsimp only
    rw [hone]
    dsimp only
    rw [htwo]
    dsimp only
    constructor
    · intro i hi
      simp only [List.mem_append] at hi
      rcases hi with (hi | hi) | hi
      · have := b1 i hi
        omega
      · have := b2 i hi
        omega
      · exact b3 i hi
    · intro j ch hja hge c hc
      rcases Nat.lt_or_ge j arena1.length with hcase | hcase
      · rw [st3 j (by omega), List.getElem?_append_left (by omega : j < arena2.length),
          st2 j hcase] at hja
        exact c1 j ch hja hge c hc
      · rcases Nat.lt_or_ge j arena2.length with hcase2 | hcase2
        · rw [st3 j (by omega), List.getElem?_append_left hcase2] at hja
          exact c2 j ch hja hcase c hc
        · rcases Nat.lt_or_ge j (arena2.length + 1) with hcase3 | hcase3
          · rw [st3 j (by omega), List.getElem?_append_right hcase2] at hja
            have hj0 : j - arena2.length = 0 := by omega
            rw [hj0] at hja
            simp at hja
            subst hja
            have := b2 c hc
            omega
          · refine c3 j ch hja ?_ c hc
            simpa using hcase3
  | case4 arena attach_to rest arena1 attach1 hrest content arena2 one hone arena3 two htwo
      ih1 ih2 ih3 =>
    rw [hrest] at ih1
    rw [hone] at ih2
    rw [htwo] at ih3
    obtain ⟨b1, c1⟩ := ih1 h
    dsimp only at b1 c1
    obtain ⟨b2, c2⟩ := ih2 b1
    dsimp only at b2 c2
    obtain ⟨b3, c3⟩ := ih3 b2
    dsimp only at b3 c3
    have l12 : arena1.length ≤ arena2.length := by
      have := create_chunks_le_length content arena1 attach1
      rw [hone] at this
      exact this
    have l23 : arena2.length ≤ arena3.length := by
      have := create_chunks_le_length content arena2 one
      rw [htwo] at this
      exact this
    have st3 : ∀ j, j < arena2.length → arena3[j]? = arena2[j]? := by
      intro j hj
      have := create_chunks_getElem_stable content arena2 one j hj
      rw [htwo] at this
      exact this
    have st2 : ∀ j, j < arena1.length → arena2[j]? = arena1[j]? := by
      intro j hj
      have := create_chunks_getElem_stable content arena1 attach1 j hj
      rw [hone] at this
      exact this
    rw [create_chunks_rep_none, hrest]
    dsimp only
    rw [hone]
    dsimp only
    rw [htwo]
    dsimp only
    constructor
    · intro i hi
      simp only [List.mem_append] at hi
      rcases hi with (hi | hi) | hi
      · have := b1 i hi
        omega
      · have := b2 i hi
        omega
      · exact b3 i hi
    · intro j ch hja hge c hc
      rcases Nat.lt_or_ge j arena1.length with hcase | hcase
      · rw [st3 j (by omega), st2 j hcase] at hja
        exact c1 j ch hja hge c hc
      · rcases Nat.lt_or_ge j arena2.length with hcase2 | hcase2
        · rw [st3 j hcase2] at hja
          exact c2 j ch hja hcase c hc
        · exact c3 j ch hja hcase2 c hc

/-- When a group sequence starts with a `simple` group, processing it returns
a singleton `attach_to` holding a freshly allocated identifier; together with
duplicate-freedom of everything the builder produces, under the discipline
that every repetition body (recursively) starts with a plain token. -/
theorem create_chunks_nodup (groups : List Group) (arena : List Chunk) (attach_to : List Nat)
    (hg : goodGroupList groups = true)
    (ha : ∀ i ∈ attach_to, i < arena.length)
    (hn : attach_to.Nodup)
    (hc : ∀ c ∈ arena, c.childs.Nodup) :
    (create_chunks arena groups attach_to).2.Nodup ∧
    (∀ c ∈ (create_chunks arena groups attach_to).1, c.childs.Nodup) ∧
    (headSimple groups = true →
      ∃ j, arena.length ≤ j ∧ (create_chunks arena groups attach_to).2 = [j]) := by
  induction arena, groups, attach_to using create_chunks.induct with
  | case1 arena attach_to =>
    rw [create_chunks_nil]
    dsimp only
    refine ⟨hn, hc, ?_⟩
    intro hh
    simp [headSimple] at hh
  | case2 arena attach_to rest arena1 attach1 hrest tokens ih =>
    rw [hrest] at ih
    have hg1 : goodGroupList rest = true := by
      simpa [goodGroupList] using hg
    obtain ⟨n1, c1, -⟩ := ih hg1 ha hn hc
    dsimp only at n1 c1
    have hlen : arena.length ≤ arena1.length := by
      have := create_chunks_le_length rest arena attach_to
      rw [hrest] at this
      exact this
    rw [create_chunks_simple, hrest]
    dsimp only
    refine ⟨by simp, ?_, ?_⟩
    · intro c hcm
      rw [List.mem_append] at hcm
      rcases hcm with hcm | hcm
      · exact c1 c hcm
      · simp only [List.mem_singleton] at hcm
        subst hcm
        exact n1
    · intro _
      exact ⟨arena1.length, hlen, rfl⟩
  | case3 arena attach_to rest arena1 attach1 hrest content arena2 one hone sep arena3 two htwo
      ih1 ih2 ih3 =>
    rw [hrest] at ih1
    rw [hone] at ih2
    rw [htwo] at ih3
    rw [goodGroupList] at hg
    simp only [Bool.and_eq_true] at hg
    obtain ⟨⟨hghead, hgcontent⟩, hgrest⟩ := hg
    obtain ⟨n1, c1, -⟩ := ih1 hgrest ha hn hc
    dsimp only at n1 c1
    have b1 : ∀ i ∈ attach1, i < arena1.length := by
      have := (create_chunks_wf rest arena attach_to ha).1
      rw [hrest] at this
      exact this
    have hlen01 : arena.length ≤ arena1.length := by
      have := create_chunks_le_length rest arena attach_to
      rw [hrest] at this
      exact this
    obtain ⟨n2, c2, cond2⟩ := ih2 hgcontent b1 n1 c1
    dsimp only at n2 c2 cond2
    have b2 : ∀ i ∈ one, i < arena2.length := by
      have := (create_chunks_wf content arena1 attach1 b1).1
      rw [hone] at this
      exact this
    obtain ⟨j1, hj1le, hj1⟩ := cond2 hghead
    have hsepa : ∀ i ∈ [arena2.length], i < (arena2 ++ [Chunk.mk [sep] one]).length := by
      intro i hi
      simp only [List.mem_singleton] at hi
      simp [hi]
    have hsepc : ∀ c ∈ arena2 ++ [Chunk.mk [sep] one], c.childs.Nodup := by
      intro c hcm
      rw [List.mem_append] at hcm
      rcases hcm with hcm | hcm
      · exact c2 c hcm
      · simp only [List.mem_singleton] at hcm
        subst hcm
        exact n2
    obtain ⟨n3, c3, cond3⟩ := ih3 hgcontent hsepa (by simp) hsepc
    dsimp only at n3 c3 cond3
    obtain ⟨j3, hj3le, hj3⟩ := cond3 hghead
    simp only [List.length_append, List.length_cons, List.length_nil] at hj3le
    have hj1lt : j1 < arena2.length := b2 j1 (by simp [hj1])
    rw [create_chunks_rep_some, hrest]
    dsimp only
    rw [hone]
    dsimp only
    rw [htwo]
    dsimp only
    refine ⟨?_, c3, ?_⟩
    · rw [hj1, hj3]
      refine List.Nodup.append (List.Nodup.append n1 (by simp) ?_) (by simp) ?_
      · intro a ha1 ha2
        simp only [List.mem_singleton] at ha2
        subst ha2
        have := b1 a ha1
        omega
      · intro a ha1 ha2
        simp only [List.mem_singleton] at ha2
        subst ha2
        rw [List.mem_append] at ha1
        rcases ha1 with ha1 | ha1
        · have := b1 a ha1
          omega
        · simp only [List.mem_singleton] at ha1
          omega
    · intro hh
      simp [headSimple] at hh
  | case4 arena attach_to rest arena1 attach1 hrest content arena2 one hone arena3 two htwo
      ih1 ih2 ih3 =>
    rw [hrest] at ih1
    rw [hone] at ih2
    rw [htwo] at ih3
    rw [goodGroupList] at hg
    simp only [Bool.and_eq_true] at hg
    obtain ⟨⟨hghead, hgcontent⟩, hgrest⟩ := hg
    obtain ⟨n1, c1, -⟩ := ih1 hgrest ha hn hc
    dsimp only at n1 c1
    have b1 : ∀ i ∈ attach1, i < arena1.length := by
      have := (create_chunks_wf rest arena attach_to ha).1
      rw [hrest] at this
      exact this
    have hlen01 : arena.length ≤ arena1.length := by
      have := create_chunks_le_length rest arena attach_to
      rw [hrest] at this
      exact this
    obtain ⟨n2, c2, cond2⟩ := ih2 hgcontent b1 n1 c1
    dsimp only at n2 c2 cond2
    have b2 : ∀ i ∈ one, i < arena2.length := by
      have := (create_chunks_wf content arena1 attach1 b1).1
      rw [hone] at this
      exact this
    obtain ⟨j1, hj1le, hj1⟩ := cond2 hghead
    have b2a : ∀ i ∈ one, i < arena2.length := b2
    obtain ⟨n3, c3, cond3⟩ := ih3 hgcontent b2 n2 c2
    dsimp only at n3 c3 cond3
    obtain ⟨j3, hj3le, hj3⟩ := cond3 hghead
    have hj1lt : j1 < arena2.length := b2 j1 (by simp [hj1])
    rw [create_chunks_rep_none, hrest]
    dsimp only
    rw [hone]
    dsimp only
    rw [htwo]
    dsimp only
    refine ⟨?_, c3, ?_⟩
    · rw [hj1, hj3]
      refine List.Nodup.append (List.Nodup.append n1 (by simp) ?_) (by simp) ?_
      · intro a ha1 ha2
        simp only [List.mem_singleton] at ha2
        subst ha2
        have := b1 a ha1
        omega
      · intro a ha1 ha2
        simp only [List.mem_singleton] at ha2
        subst ha2
        rw [List.mem_append] at ha1
        rcases ha1 with ha1 | ha1
        · have := b1 a ha1
          omega
        · simp only [List.mem_singleton] at ha1
          omega
    · intro hh
      simp [headSimple] at hh

/-- A group sequence headed by a `simple` group hands back a singleton
`attach_to` holding the identifier of the freshly allocated head chunk: the
head group is processed last, allocates one chunk, and replaces `attach_to`
with that chunk's identifier. -/
theorem create_chunks_headSimple (groups : List Group) (arena : List Chunk)
    (attach_to : List Nat) (h : headSimple groups = true) :
    ∃ j, arena.length ≤ j ∧ j < (create_chunks arena groups attach_to).1.length ∧
      (create_chunks arena groups attach_to).2 = [j] := by
  cases groups with
  | nil => simp [headSimple] at h
  | cons g rest =>
    cases g with
    | simple ts =>
      rw [create_chunks_simple]
      refine ⟨(create_chunks arena rest attach_to).1.length, ?_, ?_, rfl⟩
      · exact create_chunks_le_length rest arena attach_to
      · simp
    | repetition content separator => simp [headSimple] at h

/-- Scope of child references: every identifier handed back in the resulting
`attach_to`, and every child of a chunk allocated during the call, is either
one of the incoming `attach_to` identifiers or a freshly allocated
identifier. -/
theorem create_chunks_scope (groups : List Group) (arena : List Chunk)
    (attach_to : List Nat) :
    (∀ i ∈ (create_chunks arena groups attach_to).2,
      i ∈ attach_to ∨ arena.length ≤ i) ∧
    (∀ j ch, (create_chunks arena groups attach_to).1[j]? = some ch →
      arena.length ≤ j → ∀ c ∈ ch.childs, c ∈ attach_to ∨ arena.length ≤ c) := by
  induction arena, groups, attach_to using create_chunks.induct with
  | case1 arena attach_to =>
    rw [create_chunks_nil]
    dsimp only
    refine ⟨fun i hi => Or.inl hi, ?_⟩
    intro j ch hja hge c hc
    have := (List.getElem?_eq_some.mp hja).1
    omega
  | case2 arena attach_to rest arena1 attach1 hrest tokens ih =>
    rw [hrest] at ih
    obtain ⟨s1, t1⟩ := ih
    dsimp only at s1 t1
    have hlen : arena.length ≤ arena1.length := by
      have := create_chunks_le_length rest arena attach_to
      rw [hrest] at this
      exact this
    rw [create_chunks_simple, hrest]
    dsimp only
    constructor
    · intro i hi
      simp only [List.mem_singleton] at hi
      subst hi
      right
      omega
    · intro j ch hja hge c hc
      rcases Nat.lt_or_ge j arena1.length with hc1 | hc1
      · rw [List.getElem?_append_left hc1] at hja
        exact t1 j ch hja hge c hc
      · have hjlt := (List.getElem?_eq_some.mp hja).1
        simp only [List.length_append, List.length_cons, List.length_nil] at hjlt
        have hj : j = arena1.length := by omega
        subst hj
        rw [List.getElem?_append_right hc1] at hja
        simp at hja
        subst hja
        exact s1 c hc
  | case3 arena attach_to rest arena1 attach1 hrest content arena2 one hone sep arena3 two htwo
      ih1 ih2 ih3 =>
    rw [hrest] at ih1
    rw [hone] at ih2
    rw [htwo] at ih3
    obtain ⟨s1, t1⟩ := ih1
    dsimp only at s1 t1
    obtain ⟨s2, t2⟩ := ih2
    dsimp only at s2 t2
    obtain ⟨s3, t3⟩ := ih3
    dsimp only at s3 t3
    have l01 : arena.length ≤ arena1.length := by
      have := create_chunks_le_length rest arena attach_to
      rw [hrest] at this
      exact this
    have l12 : arena1.length ≤ arena2.length := by
      have := create_chunks_le_length content arena1 attach1
      rw [hone] at this
      exact this
    have l23 : arena2.length + 1 ≤ arena3.length := by
      have := create_chunks_le_length content (arena2 ++ [Chunk.mk [sep] one]) [arena2.length]
      rw [htwo] at this
      simpa using this
    have st3 : ∀ j, j < arena2.length + 1 →
        arena3[j]? = (arena2 ++ [Chunk.mk [sep] one])[j]? := by
      intro j hj
      have := create_chunks_getElem_stable content (arena2 ++ [Chunk.mk [sep] one])
        [arena2.length] j (by simpa using hj)
      rw [htwo] at this
      exact this
    have st2 : ∀ j, j < arena1.length → arena2[j]? = arena1[j]? := by
      intro j hj
      have := create_chunks_getElem_stable content arena1 attach1 j hj
      rw [hone] at this
      exact this
    have hone_scope : ∀ i ∈ one, i ∈ attach_to ∨ arena.length ≤ i := by
      intro i hi
      rcases s2 i hi with hi2 | hi2
      · exact s1 i hi2
      · right
        omega
    rw [create_chunks_rep_some, hrest]
    dsimp only
    rw [hone]
    dsimp only
    rw [htwo]
    dsimp only
    constructor
    · intro i hi
      simp only [List.mem_append] at hi
      rcases hi with (hi | hi) | hi
      · exact s1 i hi
      · exact hone_scope i hi
      · rcases s3 i hi with hi3 | hi3
        · simp only [List.mem_singleton] at hi3
          subst hi3
          right
          omega
        · simp only [List.length_append, List.length_cons, List.length_nil] at hi3
          right
          omega
    · intro j ch hja hge c hc
      rcases Nat.lt_or_ge j arena1.length with hcase | hcase
      · rw [st3 j (by omega), List.getElem?_append_left (by omega : j < arena2.length),
          st2 j hcase] at hja
        exact t1 j ch hja hge c hc
      · rcases Nat.lt_or_ge j arena2.length with hcase2 | hcase2
        · rw [st3 j (by omega), List.getElem?_append_left hcase2] at hja
          rcases t2 j ch hja hcase c hc with hc2 | hc2
          · exact s1 c hc2
          · right
            omega
        · rcases Nat.lt_or_ge j (arena2.length + 1) with hcase3 | hcase3
          · rw [st3 j (by omega), List.getElem?_append_right hcase2] at hja
            have hj0 : j - arena2.length = 0 := by omega
            rw [hj0] at hja
            simp at hja
            subst hja
            exact hone_scope c hc
          · rcases t3 j ch hja (by simpa using hcase3) c hc with hc3 | hc3
            · simp only [List.mem_singleton] at hc3
              subst hc3
              right
              omega
            · simp only [List.length_append, List.length_cons, List.length_nil] at hc3
              right
              omega
  | case4 arena attach_to rest arena1 attach1 hrest content arena2 one hone arena3 two htwo
      ih1 ih2 ih3 =>
    rw [hrest] at ih1
    rw [hone] at ih2
    rw [htwo] at ih3
    obtain ⟨s1, t1⟩ := ih1
    dsimp only at s1 t1
    obtain ⟨s2, t2⟩ := ih2
    dsimp only at s2 t2
    obtain ⟨s3, t3⟩ := ih3
    dsimp only at s3 t3
    have l01 : arena.length ≤ arena1.length := by
      have := create_chunks_le_length rest arena attach_to
      rw [hrest] at this
      exact this
    have l12 : arena1.length ≤ arena2.length := by
      have := create_chunks_le_length content arena1 attach1
      rw [hone] at this
      exact this
    have st3 : ∀ j, j < arena2.length → arena3[j]? = arena2[j]? := by
      intro j hj
      have := create_chunks_getElem_stable content arena2 one j hj
      rw [htwo] at this
      exact this
    have st2 : ∀ j, j < arena1.length → arena2[j]? = arena1[j]? := by
      intro j hj
      have := create_chunks_getElem_stable content arena1 attach1 j hj
      rw [hone] at this
      exact this
    have hone_scope : ∀ i ∈ one, i ∈ attach_to ∨ arena.length ≤ i := by
      intro i hi
      rcases s2 i hi with hi2 | hi2
      · exact s1 i hi2
      · right
        omega
    rw [create_chunks_rep_none, hrest]
    dsimp only
    rw [hone]
    dsimp only
    rw [htwo]
    dsimp only
    constructor
    · intro i hi
      simp only [List.mem_append] at hi
      rcases hi with (hi | hi) | hi
      · exact s1 i hi
      · exact hone_scope i hi
      · rcases s3 i hi with hi3 | hi3
        · exact hone_scope i hi3
        · right
          omega
    · intro j ch hja hge c hc
      rcases Nat.lt_or_ge j arena1.length with hcase | hcase
      · rw [st3 j (by omega), st2 j hcase] at hja
        exact t1 j ch hja hge c hc
      · rcases Nat.lt_or_ge j arena2.length with hcase2 | hcase2
        · rw [st3 j hcase2] at hja
          rcases t2 j ch hja hcase c hc with hc2 | hc2
          · exact s1 c hc2
          · right
            omega
        · rcases t3 j ch hja hcase2 c hc with hc3 | hc3
          · exact hone_scope c hc3
          · right
            omega

/-- As long as the incoming `attach_to` is non-empty, the builder never hands
back an empty `attach_to` and never allocates a chunk with an empty child
list: child lists record the continuation, which always exists. -/
theorem create_chunks_childs_nonempty (groups : List Group) (arena : List Chunk)
    (attach_to : List Nat) (h : attach_to ≠ []) :
    (create_chunks arena groups attach_to).2 ≠ [] ∧
    (∀ j ch, (create_chunks arena groups attach_to).1[j]? = some ch →
      arena.length ≤ j → ch.childs ≠ []) := by
  induction arena, groups, attach_to using create_chunks.induct with
  | case1 arena attach_to =>
    rw [create_chunks_nil]
    dsimp only
    refine ⟨h, ?_⟩
    intro j ch hja hge
    have := (List.getElem?_eq_some.mp hja).1
    omega
  | case2 arena attach_to rest arena1 attach1 hrest tokens ih =>
    rw [hrest] at ih
    obtain ⟨n1, e1⟩ := ih h
    dsimp only at n1 e1
    rw [create_chunks_simple, hrest]
    dsimp only
    refine ⟨by simp, ?_⟩
    intro j ch hja hge
    rcases Nat.lt_or_ge j arena1.length with hc1 | hc1
    · rw [List.getElem?_append_left hc1] at hja
      exact e1 j ch hja hge
    · have hjlt := (List.getElem?_eq_some.mp hja).1
      simp only [List.length_append, List.length_cons, List.length_nil] at hjlt
      have hj : j = arena1.length := by omega
      subst hj
      rw [List.getElem?_append_right hc1] at hja
      simp at hja
      subst hja
      exact n1
  | case3 arena attach_to rest arena1 attach1 hrest content arena2 one hone sep arena3 two htwo
      ih1 ih2 ih3 =>
    rw [hrest] at ih1
    rw [hone] at ih2
    rw [htwo] at ih3
    obtain ⟨n1, e1⟩ := ih1 h
    dsimp only at n1 e1
    obtain ⟨n2, e2⟩ := ih2 n1
    dsimp only at n2 e2
    obtain ⟨n3, e3⟩ := ih3 (by simp)
    dsimp only at n3 e3
    have l12 : arena1.length ≤ arena2.length := by
      have := create_chunks_le_length content arena1 attach1
      rw [hone] at this
      exact this
    have st3 : ∀ j, j < arena2.length + 1 →
        arena3[j]? = (arena2 ++ [Chunk.mk [sep] one])[j]? := by
      intro j hj
      have := create_chunks_getElem_stable content (arena2 ++ [Chunk.mk [sep] one])
        [arena2.length] j (by simpa using hj)
      rw [htwo] at this
      exact this
    have st2 : ∀ j, j < arena1.length → arena2[j]? = arena1[j]? := by
      intro j hj
      have := create_chunks_getElem_stable content arena1 attach1 j hj
      rw [hone] at this
      exact this
    rw [create_chunks_rep_some, hrest]
    dsimp only
    rw [hone]
    dsimp only
    rw [htwo]
    dsimp only
    constructor
    · intro hcon
      exact n1 (List.append_eq_nil.mp (List.append_eq_nil.mp hcon).1).1
    · intro j ch hja hge
      rcases Nat.lt_or_ge j arena1.length with hcase | hcase
      · rw [st3 j (by omega), List.getElem?_append_left (by omega : j < arena2.length),
          st2 j hcase] at hja
        exact e1 j ch hja hge
      · rcases Nat.lt_or_ge j arena2.length with hcase2 | hcase2
        · rw [st3 j (by omega), List.getElem?_append_left hcase2] at hja
          exact e2 j ch hja hcase
        · rcases Nat.lt_or_ge j (arena2.length + 1) with hcase3 | hcase3
          · rw [st3 j (by omega), List.getElem?_append_right hcase2] at hja
            have hj0 : j - arena2.length = 0 := by omega
            rw [hj0] at hja
            simp at hja
            subst hja
            exact n2
          · exact e3 j ch hja (by simpa using hcase3)
  | case4 arena attach_to rest arena1 attach1 hrest content arena2 one hone arena3 two htwo
      ih1 ih2 ih3 =>
    rw [hrest] at ih1
    rw [hone] at ih2
    rw [htwo] at ih3
    obtain ⟨n1, e1⟩ := ih1 h
    dsimp only at n1 e1
    obtain ⟨n2, e2⟩ := ih2 n1
    dsimp only at n2 e2
    obtain ⟨n3, e3⟩ := ih3 n2
    dsimp only at n3 e3
    have l12 : arena1.length ≤ arena2.length := by
      have := create_chunks_le_length content arena1 attach1
      rw [hone] at this
      exact this
    have st3 : ∀ j, j < arena2.length → arena3[j]? = arena2[j]? := by
      intro j hj
      have := create_chunks_getElem_stable content arena2 one j hj
      rw [htwo] at this
      exact this
    have st2 : ∀ j, j < arena1.length → arena2[j]? = arena1[j]? := by
      intro j hj
      have := create_chunks_getElem_stable content arena1 attach1 j hj
      rw [hone] at this
      exact this
    rw [create_chunks_rep_none, hrest]
    dsimp only
    rw [hone]
    dsimp only
    rw [htwo]
    dsimp only
    constructor
    · intro hcon
      exact n1 (List.append_eq_nil.mp (List.append_eq_nil.mp hcon).1).1
    · intro j ch hja hge
      rcases Nat.lt_or_ge j arena1.length with hcase | hcase
      · rw [st3 j (by omega), st2 j hcase] at hja
        exact e1 j ch hja hge
      · rcases Nat.lt_or_ge j arena2.length with hcase2 | hcase2
        · rw [st3 j hcase2] at hja
          exact e2 j ch hja hcase
        · exact e3 j ch hja hcase2

/-- Splitting a complete walk at a distinguished identifier `s`: if every
chunk stored above `s` has a non-empty child list whose members are either
`s` itself or again above `s`, and the chunk stored at `s` has child list
exactly `[j1]`, then every complete walk starting above `s` passes through
`s`, with only identifiers above `s` before it and `j1` immediately after
it. -/
theorem walk_split (A : List Chunk) (s j1 : Nat)
    (hsch : ∀ ch, A[s]? = some ch → ch.childs = [j1])
    (hscope : ∀ a ch, A[a]? = some ch → s + 1 ≤ a → ∀ c ∈ ch.childs, c = s ∨ s + 1 ≤ c)
    (hne : ∀ a ch, A[a]? = some ch → s + 1 ≤ a → ch.childs ≠ []) :
    ∀ w a, isWalk A w = true → w.head? = some a → s + 1 ≤ a →
      lastChildless A w = true →
      ∃ pre post, w = pre ++ s :: post ∧ pre ≠ [] ∧
        (∀ x ∈ pre, s + 1 ≤ x) ∧ post.head? = some j1 := by
  intro w
  induction w with
  | nil =>
    intro a _ hhead
    simp at hhead
  | cons a0 rest ihw =>
    intro a hwalk hhead ha hlast
    simp only [List.head?_cons, Option.some.injEq] at hhead
    subst hhead
    cases rest with
    | nil =>
      exfalso
      rw [lastChildless] at hlast
      simp only [List.getLast?_singleton] at hlast
      rcases hA : A[a0]? with _ | ch
      · rw [hA] at hlast
        simp at hlast
      · rw [hA] at hlast
        simp only [List.isEmpty_iff] at hlast
        exact hne a0 ch hA ha hlast
    | cons b rest2 =>
      rw [isWalk] at hwalk
      rcases hA : A[a0]? with _ | ch
      · rw [hA] at hwalk
        simp at hwalk
      · rw [hA] at hwalk
        simp only [Bool.and_eq_true, decide_eq_true_eq] at hwalk
        obtain ⟨hb, hwalk2⟩ := hwalk
        have hlast2 : lastChildless A (b :: rest2) = true := by
          rw [lastChildless] at hlast ⊢
          rw [List.getLast?_cons_cons] at hlast
          exact hlast
        rcases hscope a0 ch hA ha b hb with hbs | hbs
        · subst hbs
          refine ⟨[a0], rest2, rfl, by simp, by simpa using ha, ?_⟩
          cases rest2 with
          | nil =>
            exfalso
            rw [lastChildless] at hlast2
            simp only [List.getLast?_singleton] at hlast2
            rcases hA2 : A[b]? with _ | ch2
            · rw [hA2] at hlast2
              simp at hlast2
            · rw [hA2] at hlast2
              simp only [List.isEmpty_iff] at hlast2
              rw [hsch ch2 hA2] at hlast2
              exact absurd hlast2 (by simp)
          | cons c rest3 =>
            rw [isWalk] at hwalk2
            rcases hA2 : A[b]? with _ | ch2
            · rw [hA2] at hwalk2
              simp at hwalk2
            · rw [hA2] at hwalk2
              simp only [Bool.and_eq_true, decide_eq_true_eq] at hwalk2
              have hcj : c ∈ ch2.childs := hwalk2.1
              rw [hsch ch2 hA2] at hcj
              simp only [List.mem_singleton] at hcj
              subst hcj
              rfl
        · obtain ⟨pre, post, heq, hpne, hball, hpost⟩ :=
            ihw b hwalk2 rfl hbs hlast2
          refine ⟨a0 :: pre, post, ?_, by simp, ?_, hpost⟩
          · rw [heq]
            rfl
          · intro x hx
            rcases List.mem_cons.mp hx with hx | hx
            · subst hx
              exact ha
            · exact hball x hx

/-! Totality and error shape of the tree builder. -/

/-- The error messages the tree builder can actually surface when invoked on a
whole token stream. -/
def parse_error_msgs : List String :=
  ["Expected `(` after the `$`", "Unbalanced parentheses", "Expected `*`",
   "Expected tokens :O"]

/-- A successful parenthesis scan consumed at least the closing parenthesis
and at most the whole input. -/
theorem scanClose_bounds (l : List Token) :
    ∀ d idx, scanClose l d = some idx → 1 ≤ idx ∧ idx ≤ l.length := by
  induction l with
  | nil =>
    intro d idx h
    simp [scanClose] at h
  | cons t rest ih =>
    intro d idx h
    rw [scanClose] at h
    by_cases hz : depthStep t d = 0
    · rw [if_pos hz] at h
      simp only [Option.some.injEq] at h
      subst h
      simp
    · rw [if_neg hz] at h
      rcases hrec : scanClose rest (depthStep t d) with _ | idx2
      · rw [hrec] at h
        simp at h
      · rw [hrec] at h
        simp only [Option.some.injEq] at h
        subst h
        have := ih (depthStep t d) idx2 hrec
        simp only [List.length_cons]
        omega

/-- Exhaustive description of `split_separator`: it either succeeds without
growing the input, or fails with one of its two messages. -/
theorem split_separator_cases (l : List Token) :
    (∃ s t, split_separator l = Except.ok (s, t) ∧ t.length < l.length) ∨
    split_separator l = Except.error "Expected `*`" ∨
    split_separator l = Except.error "Expected tokens :O" := by
  unfold split_separator
  split
  · right; right; rfl
  · left
    refine ⟨none, _, rfl, ?_⟩
    simp
  · left
    refine ⟨_, _, rfl, ?_⟩
    simp only [List.length_cons]
    omega
  · right; left; rfl

/-- With fuel exceeding twice the input length, the tree builder never runs
out of fuel: parsing one tree either succeeds and strictly consumes input, or
fails with one of the four messages of `parse_error_msgs`; parsing a whole
stream either succeeds or fails with one of those messages. -/
theorem parse_fuel_total (fuel : Nat) :
    (∀ input : List Token, input ≠ [] → 2 * input.length ≤ fuel →
      (∃ t rest, parse_tokentree_fuel fuel input = Except.ok (t, rest) ∧
        rest.length < input.length) ∨
      (∃ e, parse_tokentree_fuel fuel input = Except.error e ∧ e ∈ parse_error_msgs)) ∧
    (∀ input : List Token, 2 * input.length + 1 ≤ fuel →
      (∃ ts, parse_forest_fuel fuel input = Except.ok ts) ∨
      (∃ e, parse_forest_fuel fuel input = Except.error e ∧ e ∈ parse_error_msgs)) := by
  induction fuel with
  | zero =>
    refine ⟨?_, ?_⟩
    · intro input hne hlen
      cases input with
      | nil => exact absurd rfl hne
      | cons a l =>
        simp only [List.length_cons] at hlen
        omega
    · intro input hlen
      omega
  | succ fuel ih =>
    obtain ⟨ihtree, ihforest⟩ := ih
    have htree : ∀ input : List Token, input ≠ [] → 2 * input.length ≤ fuel + 1 →
        (∃ t rest, parse_tokentree_fuel (fuel + 1) input = Except.ok (t, rest) ∧
          rest.length < input.length) ∨
        (∃ e, parse_tokentree_fuel (fuel + 1) input = Except.error e ∧
          e ∈ parse_error_msgs) := by
      intro input hne hlen
      cases input with
      | nil => exact absurd rfl hne
      | cons tok rest =>
        simp only [List.length_cons] at hlen
        by_cases hd : tok = Token.dollar
        · subst hd
          cases rest with
          | nil =>
            right
            refine ⟨"Expected `(` after the `$`", ?_, by simp [parse_error_msgs]⟩
            simp [parse_tokentree_fuel]
          | cons r0 rest2 =>
            cases r0 with
            | openParen =>
              simp only [List.length_cons] at hlen
              rcases hscan : scanClose rest2 1 with _ | idx
              · right
                refine ⟨"Unbalanced parentheses", ?_, by simp [parse_error_msgs]⟩
                simp only [parse_tokentree_fuel, reduceIte]
                rw [hscan]
              · obtain ⟨hidx1, hidx2⟩ := scanClose_bounds rest2 1 idx hscan
                rcases split_separator_cases (rest2.drop idx) with
                  ⟨s, t, hsep, hlt⟩ | hsep | hsep
                · rcases ihforest ((rest2.take idx).dropLast)
                    (by simp only [List.length_dropLast, List.length_take]; omega) with
                    ⟨ts, hfor⟩ | ⟨e, hfor, hmem⟩
                  · left
                    refine ⟨TokenTree.repetition ts s, t, ?_, ?_⟩
                    · simp only [parse_tokentree_fuel, reduceIte]
                      rw [hscan]
                      dsimp only
                      rw [hsep]
                      dsimp only
                      rw [hfor]
                    · simp only [List.length_drop] at hlt
                      simp only [List.length_cons]
                      omega
                  · right
                    refine ⟨e, ?_, hmem⟩
                    simp only [parse_tokentree_fuel, reduceIte]
                    rw [hscan]
                    dsimp only
                    rw [hsep]
                    dsimp only
                    rw [hfor]
                · right
                  refine ⟨"Expected `*`", ?_, by simp [parse_error_msgs]⟩
                  simp only [parse_tokentree_fuel, reduceIte]
                  rw [hscan]
                  dsimp only
                  rw [hsep]
                · right
                  refine ⟨"Expected tokens :O", ?_, by simp [parse_error_msgs]⟩
                  simp only [parse_tokentree_fuel, reduceIte]
                  rw [hscan]
                  dsimp only
                  rw [hsep]
            | closeParen =>
              right
              refine ⟨"Expected `(` after the `$`", ?_, by simp [parse_error_msgs]⟩
              simp [parse_tokentree_fuel]
            | openSquare =>
              right
              refine ⟨"Expected `(` after the `$`", ?_, by simp [parse_error_msgs]⟩
              simp [parse_tokentree_fuel]
            | closeSquare =>
              right
              refine ⟨"Expected `(` after the `$`", ?_, by simp [parse_error_msgs]⟩
              simp [parse_tokentree_fuel]
            | comma =>
              right
              refine ⟨"Expected `(` after the `$`", ?_, by simp [parse_error_msgs]⟩
              simp [parse_tokentree_fuel]
            | plus =>
              right
              refine ⟨"Expected `(` after the `$`", ?_, by simp [parse_error_msgs]⟩
              simp [parse_tokentree_fuel]
            | dash =>
              right
              refine ⟨"Expected `(` after the `$`", ?_, by simp [parse_error_msgs]⟩
              simp [parse_tokentree_fuel]
            | semicolon =>
              right
              refine ⟨"Expected `(` after the `$`", ?_, by simp [parse_error_msgs]⟩
              simp [parse_tokentree_fuel]
            | dollar =>
              right
              refine ⟨"Expected `(` after the `$`", ?_, by simp [parse_error_msgs]⟩
              simp [parse_tokentree_fuel]
            | star =>
              right
              refine ⟨"Expected `(` after the `$`", ?_, by simp [parse_error_msgs]⟩
              simp [parse_tokentree_fuel]
            | slash =>
              right
              refine ⟨"Expected `(` after the `$`", ?_, by simp [parse_error_msgs]⟩
              simp [parse_tokentree_fuel]
            | number n =>
              right
              refine ⟨"Expected `(` after the `$`", ?_, by simp [parse_error_msgs]⟩
              simp [parse_tokentree_fuel]
            | string str =>
              right
              refine ⟨"Expected `(` after the `$`", ?_, by simp [parse_error_msgs]⟩
              simp [parse_tokentree_fuel]
        · left
          refine ⟨TokenTree.token tok, rest, ?_, by simp⟩
          simp [parse_tokentree_fuel, hd]
    refine ⟨htree, ?_⟩
    intro input hlen
    cases input with
    | nil =>
      left
      exact ⟨[], rfl⟩
    | cons t r =>
      simp only [List.length_cons] at hlen
      rw [parse_forest_fuel]
      rcases ihtree (t :: r) (by simp) (by simp only [List.length_cons]; omega) with
        ⟨tree, rest, htr, hrest⟩ | ⟨e, htr, hmem⟩
      · rw [htr]
        dsimp only
        simp only [List.length_cons] at hrest
        rcases ihforest rest (by omega) with ⟨ts, hfor⟩ | ⟨e, hfor, hmem⟩
        · rw [hfor]
          left
          exact ⟨_, rfl⟩
        · rw [hfor]
          right
          exact ⟨e, rfl, hmem⟩
      · rw [htr]
        right
        exact ⟨e, rfl, hmem⟩

/-! Behaviour of the pipeline on dollar-free token sequences. -/

/-- A token sequence without the repetition marker parses into one `token`
tree per token. -/
theorem parse_forest_no_dollar (fuel : Nat) :
    ∀ ts : List Token, Token.dollar ∉ ts → ts.length < fuel →
      parse_forest_fuel fuel ts = Except.ok (ts.map TokenTree.token) := by
  induction fuel with
  | zero =>
    intro ts hd hlen
    omega
  | succ fuel ih =>
    intro ts hd hlen
    cases ts with
    | nil => rfl
    | cons t r =>
      simp only [List.length_cons] at hlen
      have ht : ¬(t = Token.dollar) := by
        intro h
        exact hd (by simp [h])
      have htree : parse_tokentree_fuel fuel (t :: r) = Except.ok (TokenTree.token t, r) := by
        cases fuel with
        | zero => omega
        | succ fuel2 => simp [parse_tokentree_fuel, ht]
      rw [parse_forest_fuel, htree]
      dsimp only
      rw [ih r (fun hm => hd (by simp [hm])) (by omega)]
      simp

/-- Collapsing a pure token stream yields at most one `simple` group carrying
the pending buffer followed by all the tokens. -/
theorem create_groups_go_tokens (ts : List Token) :
    ∀ current : List Token,
      create_groups_go (ts.map TokenTree.token) current =
        if (current ++ ts).isEmpty then [] else [Group.simple (current ++ ts)] := by
  induction ts with
  | nil =>
    intro current
    simp [create_groups_go]
  | cons t r ih =>
    intro current
    simp only [List.map_cons]
    rw [create_groups_go]
    rw [ih (current ++ [t])]
    simp

/-! Structural facts about the group collapser, towards C8. -/

/-- Flattening the collapsed groups recovers the pending buffer followed by
the flattened input trees. -/
theorem flattenGroups_go (ts : List TokenTree) (current : List Token) :
    flattenGroups (create_groups_go ts current) = current ++ flattenTrees ts := by
  induction ts, current using create_groups_go.induct with
  | case1 current hc =>
    rw [create_groups_go, if_pos hc]
    have hcur : current = [] := by simpa using hc
    simp [hcur, flattenGroups, flattenTrees]
  | case2 current hc =>
    rw [create_groups_go, if_neg hc]
    simp [flattenGroups, flattenTrees]
  | case3 t rest current ih =>
    rw [create_groups_go, ih]
    simp [flattenTrees]
  | case4 repeated separator rest current ih1 ih2 =>
    rw [create_groups_go]
    by_cases hc : current.isEmpty
    · rw [if_pos hc]
      have hcur : current = [] := by simpa using hc
      simp only [List.nil_append]
      rw [flattenGroups, ih1, ih2]
      simp [hcur, flattenTrees]
    · rw [if_neg hc]
      simp only [List.singleton_append]
      rw [flattenGroups, flattenGroups, ih1, ih2]
      simp [flattenTrees]

/-- Collapsing preserves the repetition skeleton (nesting and separators). -/
theorem groupsSkel_go (ts : List TokenTree) (current : List Token) :
    groupsSkel (create_groups_go ts current) = treesSkel ts := by
  induction ts, current using create_groups_go.induct with
  | case1 current hc =>
    rw [create_groups_go, if_pos hc]
    simp [groupsSkel, treesSkel]
  | case2 current hc =>
    rw [create_groups_go, if_neg hc]
    simp [groupsSkel, treesSkel]
  | case3 t rest current ih =>
    rw [create_groups_go, ih]
    simp [treesSkel]
  | case4 repeated separator rest current ih1 ih2 =>
    rw [create_groups_go]
    by_cases hc : current.isEmpty
    · rw [if_pos hc]
      simp only [List.nil_append]
      rw [groupsSkel, ih1, ih2]
      simp [treesSkel]
    · rw [if_neg hc]
      simp only [List.singleton_append]
      rw [groupsSkel, groupsSkel, ih1, ih2]
      simp [treesSkel]

/-- The collapser never emits two adjacent `simple` groups. -/
theorem no_adjacent_go (ts : List TokenTree) (current : List Token) :
    no_adjacent (create_groups_go ts current) = true := by
  induction ts, current using create_groups_go.induct with
  | case1 current hc =>
    rw [create_groups_go, if_pos hc]
    simp [no_adjacent]
  | case2 current hc =>
    rw [create_groups_go, if_neg hc]
    simp [no_adjacent]
  | case3 t rest current ih =>
    rw [create_groups_go]
    exact ih
  | case4 repeated separator rest current ih1 ih2 =>
    rw [create_groups_go]
    by_cases hc : current.isEmpty
    · rw [if_pos hc]
      simp only [List.nil_append]
      simp [no_adjacent, ih1, ih2]
    · rw [if_neg hc]
      simp only [List.singleton_append]
      simp [no_adjacent, ih1, ih2]

/-- Every `simple` group the collapser emits is non-empty. -/
theorem simples_nonempty_go (ts : List TokenTree) (current : List Token) :
    simples_nonempty (create_groups_go ts current) = true := by
  induction ts, current using create_groups_go.induct with
  | case1 current hc =>
    rw [create_groups_go, if_pos hc]
    simp [simples_nonempty]
  | case2 current hc =>
    rw [create_groups_go, if_neg hc]
    simp only [Bool.not_eq_true] at hc
    simp [simples_nonempty, hc]
  | case3 t rest current ih =>
    rw [create_groups_go]
    exact ih
  | case4 repeated separator rest current ih1 ih2 =>
    rw [create_groups_go]
    by_cases hc : current.isEmpty
    · rw [if_pos hc]
      simp only [List.nil_append]
      simp [simples_nonempty, ih1, ih2]
    · rw [if_neg hc]
      simp only [List.singleton_append]
      simp only [Bool.not_eq_true] at hc
      simp [simples_nonempty, hc, ih1, ih2]

/-! Shape of `of` depending on the parse outcome. -/

theorem of_tokens_ok (tokens : List Token) (ts : List TokenTree)
    (h : parse_tokenstream tokens = Except.ok ts) :
    of_tokens tokens = Except.ok (Chunks.mk (create_chunks [] (create_groups ts) []).1
      (create_chunks [] (create_groups ts) []).2) := by
  simp [of_tokens, h]

theorem of_tokens_error (tokens : List Token) (e : String)
    (h : parse_tokenstream tokens = Except.error e) :
    of_tokens tokens = Except.error e := by
  simp [of_tokens, h]

/-! The claims. -/

/-- C1: for the input template `[$(1),*]`, the chunk graph builder produces an
arena of exactly 5 chunks: a terminal `]` chunk with no children; a `1` chunk
whose only child is the terminal; a `,` chunk whose only child is that first
`1` chunk; a second `1` chunk whose only child is the `,` chunk; and a `[`
chunk whose children are the terminal, the first `1` chunk and the second `1`
chunk, in that order; the firsts list contains exactly the `[` chunk. -/
theorem claim_c1 :
    of "[$(1),*]" = some (Except.ok (Chunks.mk
      [Chunk.mk [Token.closeSquare] [],
       Chunk.mk [Token.number 1] [0],
       Chunk.mk [Token.comma] [1],
       Chunk.mk [Token.number 1] [2],
       Chunk.mk [Token.openSquare] [0, 1, 3]]
      [4])) := by
  have hlex : lex "[$(1),*]" = some [Token.openSquare, Token.dollar, Token.openParen,
      Token.number 1, Token.closeParen, Token.comma, Token.star, Token.closeSquare] := rfl
  have hp : parse_tokenstream [Token.openSquare, Token.dollar, Token.openParen,
      Token.number 1, Token.closeParen, Token.comma, Token.star, Token.closeSquare] =
      Except.ok [TokenTree.token Token.openSquare,
        TokenTree.repetition [TokenTree.token (Token.number 1)] (some Token.comma),
        TokenTree.token Token.closeSquare] := rfl
  simp [of, hlex, of_tokens, hp, create_groups, create_groups_go, create_chunks]

/-- C9: on the empty template the pipeline succeeds, returning an arena with
zero chunks and an empty firsts list. -/
theorem claim_c9 : of "" = some (Except.ok (Chunks.mk [] [])) := by
  have hlex : lex "" = some [] := rfl
  have hp : parse_tokenstream [] = Except.ok [] := rfl
  simp [of, hlex, of_tokens, hp, create_groups, create_groups_go, create_chunks]

/-- C10: the empty-body repetition `$()*` is accepted without error and
allocates no chunks at all; in general, a repetition with empty body leaves
the arena untouched except that a declared separator allocates exactly one
chunk, whose token list is the separator and whose children are the
surrounding continuation identifiers (which are also the one-occurrence entry
identifiers, visible as the middle segment of the resulting `attach_to`). -/
theorem claim_c10 :
    of "$()*" = some (Except.ok (Chunks.mk [] [])) ∧
    (∀ (arena : List Chunk) (attach_to : List Nat) (s : Token),
      create_chunks arena [Group.repetition [] (some s)] attach_to =
        (arena ++ [Chunk.mk [s] attach_to], attach_to ++ attach_to ++ [arena.length])) ∧
    (∀ (arena : List Chunk) (attach_to : List Nat),
      create_chunks arena [Group.repetition [] none] attach_to =
        (arena, attach_to ++ attach_to ++ attach_to)) := by
  refine ⟨?_, ?_, ?_⟩
  · have hlex : lex "$()*" = some [Token.dollar, Token.openParen, Token.closeParen,
        Token.star] := rfl
    have hp : parse_tokenstream [Token.dollar, Token.openParen, Token.closeParen,
        Token.star] = Except.ok [TokenTree.repetition [] none] := rfl
    simp [of, hlex, of_tokens, hp, create_groups, create_groups_go, create_chunks]
  · intro arena attach_to s
    rw [create_chunks_rep_some]
    simp [create_chunks_nil]
  · intro arena attach_to
    rw [create_chunks_rep_none]
    simp [create_chunks_nil]

/-- C2 fails as stated: the empty template contains no repetition marker, the
pipeline succeeds on it, and the resulting arena has zero chunks, not exactly
one. -/
theorem claim_c2_counterexample :
    Token.dollar ∉ ([] : List Token) ∧
    of_tokens [] = Except.ok (Chunks.mk [] []) ∧
    (Chunks.mk [] []).inner.length ≠ 1 := by
  refine ⟨by simp, ?_, by simp⟩
  have hp : parse_tokenstream [] = Except.ok [] := rfl
  simp [of_tokens, hp, create_groups, create_groups_go, create_chunks]

/-- C2, amended: for every template whose token sequence is non-empty and
contains no repetition marker `$`, the pipeline succeeds and the arena
contains exactly one chunk carrying the full token sequence with no children,
and the firsts list contains exactly that chunk. -/
theorem claim_c2 (tokens : List Token) (hne : tokens ≠ []) (hd : Token.dollar ∉ tokens) :
    of_tokens tokens = Except.ok (Chunks.mk [Chunk.mk tokens []] [0]) := by
  have hp : parse_tokenstream tokens = Except.ok (tokens.map TokenTree.token) := by
    rw [parse_tokenstream]
    exact parse_forest_no_dollar _ tokens hd (by omega)
  have hg : create_groups (tokens.map TokenTree.token) = [Group.simple tokens] := by
    rw [create_groups, create_groups_go_tokens]
    simp [hne]
  rw [of_tokens_ok tokens _ hp, hg]
  rw [create_chunks_simple]
  simp [create_chunks_nil]

/-- Witness for C2 at the concrete dollar-free template `1`. -/
theorem claim_c2_witness :
    of_tokens [Token.number 1] =
      Except.ok (Chunks.mk [Chunk.mk [Token.number 1] []] [0]) :=
  claim_c2 [Token.number 1] (by simp) (by simp)

/-- C3 fails as stated: the template `[$()*]` parses successfully, yet the
builder emits the chunk `[` with child list `[0, 0, 0]`, in which the
identifier 0 occurs three times — `attach_to` is not kept duplicate-free when
a repetition body is empty (the zero- and one-occurrence contributions
coincide). -/
theorem claim_c3_counterexample :
    of "[$()*]" = some (Except.ok (Chunks.mk
      [Chunk.mk [Token.closeSquare] [],
       Chunk.mk [Token.openSquare] [0, 0, 0]]
      [1])) ∧
    ¬ (Chunk.mk [Token.openSquare] [0, 0, 0]).childs.Nodup := by
  refine ⟨?_, by decide⟩
  have hlex : lex "[$()*]" = some [Token.openSquare, Token.dollar, Token.openParen,
      Token.closeParen, Token.star, Token.closeSquare] := rfl
  have hp : parse_tokenstream [Token.openSquare, Token.dollar, Token.openParen,
      Token.closeParen, Token.star, Token.closeSquare] =
      Except.ok [TokenTree.token Token.openSquare,
        TokenTree.repetition [] none,
        TokenTree.token Token.closeSquare] := rfl
  simp [of, hlex, of_tokens, hp, create_groups, create_groups_go, create_chunks]

/-- C3, amended: for every input that parses successfully and in which every
repetition body's collapsed group sequence begins with a `simple` group (its
first token tree is a plain token, recursively), no chunk identifier occurs
more than once in the firsts list or in any chunk's child list. -/
theorem claim_c3 (tokens : List Token) (ts : List TokenTree) (ch : Chunks)
    (hp : parse_tokenstream tokens = Except.ok ts)
    (hg : goodGroupList (create_groups ts) = true)
    (h : of_tokens tokens = Except.ok ch) :
    ch.firsts.Nodup ∧ ∀ c ∈ ch.inner, c.childs.Nodup := by
  rw [of_tokens_ok tokens ts hp] at h
  have hch : ch = Chunks.mk (create_chunks [] (create_groups ts) []).1
      (create_chunks [] (create_groups ts) []).2 := by
    exact (Except.ok.injEq _ _).mp h.symm
  subst hch
  obtain ⟨n, cN, -⟩ := create_chunks_nodup (create_groups ts) [] [] hg
    (by simp) (by simp) (by simp)
  exact ⟨n, cN⟩

/-- Witness for C3 at the template `[$(1),*]`. -/
theorem claim_c3_witness :
    (Chunks.mk
      [Chunk.mk [Token.closeSquare] [],
       Chunk.mk [Token.number 1] [0],
       Chunk.mk [Token.comma] [1],
       Chunk.mk [Token.number 1] [2],
       Chunk.mk [Token.openSquare] [0, 1, 3]]
      [4]).firsts.Nodup ∧
    ∀ c ∈ (Chunks.mk
      [Chunk.mk [Token.closeSquare] [],
       Chunk.mk [Token.number 1] [0],
       Chunk.mk [Token.comma] [1],
       Chunk.mk [Token.number 1] [2],
       Chunk.mk [Token.openSquare] [0, 1, 3]]
      [4]).inner, c.childs.Nodup :=
  claim_c3 [Token.openSquare, Token.dollar, Token.openParen, Token.number 1,
      Token.closeParen, Token.comma, Token.star, Token.closeSquare]
    [TokenTree.token Token.openSquare,
      TokenTree.repetition [TokenTree.token (Token.number 1)] (some Token.comma),
      TokenTree.token Token.closeSquare]
    (Chunks.mk
      [Chunk.mk [Token.closeSquare] [],
       Chunk.mk [Token.number 1] [0],
       Chunk.mk [Token.comma] [1],
       Chunk.mk [Token.number 1] [2],
       Chunk.mk [Token.openSquare] [0, 1, 3]]
      [4])
    rfl
    (by simp [create_groups, create_groups_go, goodGroupList, headSimple])
    (by have hp : parse_tokenstream [Token.openSquare, Token.dollar, Token.openParen,
          Token.number 1, Token.closeParen, Token.comma, Token.star, Token.closeSquare] =
          Except.ok [TokenTree.token Token.openSquare,
            TokenTree.repetition [TokenTree.token (Token.number 1)] (some Token.comma),
            TokenTree.token Token.closeSquare] := rfl
        simp [of_tokens, hp, create_groups, create_groups_go, create_chunks])

/-- C4: every arena the builder returns is well-formed and acyclic — every
identifier in the firsts list points to an existing chunk, and every child
identifier of the chunk stored at index `j` is strictly smaller than `j`
(identifiers are assigned in allocation order), hence also points to an
existing chunk, and any traversal following children strictly decreases the
identifier and terminates. -/
theorem claim_c4 (tokens : List Token) (ch : Chunks)
    (h : of_tokens tokens = Except.ok ch) :
    (∀ f ∈ ch.firsts, f < ch.inner.length) ∧
    (∀ j chunk, ch.inner[j]? = some chunk →
      ∀ c ∈ chunk.childs, c < j ∧ c < ch.inner.length) := by
  rcases hp : parse_tokenstream tokens with e | ts
  · rw [of_tokens_error tokens e hp] at h
    exact absurd h (by simp)
  · rw [of_tokens_ok tokens _ hp] at h
    have hch : ch = Chunks.mk (create_chunks [] (create_groups ts) []).1
        (create_chunks [] (create_groups ts) []).2 := by
      exact (Except.ok.injEq _ _).mp h.symm
    subst hch
    obtain ⟨b, c⟩ := create_chunks_wf (create_groups ts) [] [] (by simp)
    refine ⟨b, ?_⟩
    dsimp only
    intro j chunk hj x hx
    have hjlt := (List.getElem?_eq_some.mp hj).1
    have hxj := c j chunk hj (by simp) x hx
    exact ⟨hxj, by omega⟩

/-- Witness for C4 at the template `1`. -/
theorem claim_c4_witness :
    (∀ f ∈ (Chunks.mk [Chunk.mk [Token.number 1] []] [0]).firsts,
      f < (Chunks.mk [Chunk.mk [Token.number 1] []] [0]).inner.length) ∧
    (∀ j chunk, (Chunks.mk [Chunk.mk [Token.number 1] []] [0]).inner[j]? = some chunk →
      ∀ c ∈ chunk.childs,
        c < j ∧ c < (Chunks.mk [Chunk.mk [Token.number 1] []] [0]).inner.length) :=
  claim_c4 [Token.number 1] (Chunks.mk [Chunk.mk [Token.number 1] []] [0])
    (by have hp : parse_tokenstream [Token.number 1] =
          Except.ok [TokenTree.token (Token.number 1)] := rfl
        simp [of_tokens, hp, create_groups, create_groups_go, create_chunks])

/-- C5 fails as stated: on `$()` — marker, opening and closing delimiter with
nothing after — the tree builder fails, yet none of the four listed conditions
holds: the input ends immediately after the matching closing delimiter, before
any terminator and without any captured separator.  The error site is the
`None` arm of the `tail.split_first()` match, whose message is distinct from
the messages of the four listed conditions. -/
theorem claim_c5_counterexample :
    parse_tokenstream [Token.dollar, Token.openParen, Token.closeParen] =
      Except.error "Expected tokens :O" ∧
    "Expected tokens :O" ∉
      (["Failed to parse a tokentree out of no token at all :/",
        "Expected `(` after the `$`", "Unbalanced parentheses",
        "Expected `*`"] : List String) := by
  exact ⟨rfl, by decide⟩

/-- C5, amended: the tree builder fails exactly when one of FIVE conditions
occurs, and succeeds otherwise: the four listed ones plus "the input is
exhausted immediately after the group's matching closing delimiter, before a
terminator or separator".  (The first listed condition — a token tree is
expected but the input is empty — can never fire through `parse_tokenstream`,
whose loops only invoke the tree parser on non-empty input, so its message
does not appear below.)  Each failure surfaces one of the four reachable
messages, each of which is reachable; on failure the error propagates through
`of` and no chunks are produced. -/
theorem claim_c5 :
    (∀ tokens : List Token,
      (∃ ts, parse_tokenstream tokens = Except.ok ts) ∨
      (∃ e, parse_tokenstream tokens = Except.error e ∧ e ∈ parse_error_msgs)) ∧
    (∀ (tokens : List Token) (e : String),
      parse_tokenstream tokens = Except.error e → of_tokens tokens = Except.error e) ∧
    (parse_tokenstream [Token.dollar] = Except.error "Expected `(` after the `$`" ∧
     parse_tokenstream [Token.dollar, Token.openParen] =
       Except.error "Unbalanced parentheses" ∧
     parse_tokenstream [Token.dollar, Token.openParen, Token.closeParen, Token.comma,
       Token.comma] = Except.error "Expected `*`" ∧
     parse_tokenstream [Token.dollar, Token.openParen, Token.closeParen] =
       Except.error "Expected tokens :O") := by
  refine ⟨?_, ?_, rfl, rfl, rfl, rfl⟩
  · intro tokens
    rw [parse_tokenstream]
    exact (parse_fuel_total (2 * tokens.length + 1)).2 tokens (le_refl _)
  · intro tokens e h
    exact of_tokens_error tokens e h

/-- Witness for C5: the error of the malformed template `$` propagates through
the pipeline unchanged, producing no chunks. -/
theorem claim_c5_witness :
    of_tokens [Token.dollar] = Except.error "Expected `(` after the `$`" :=
  claim_c5.2.1 [Token.dollar] "Expected `(` after the `$`" rfl

/-- C6: for every repetition group processed by the chunk builder, the
resulting continuation list is, in order: the pre-existing zero-occurrence
identifiers (`attach1`, kept as-is), then the one-occurrence entry
identifiers, then the two-or-more-occurrence entry identifiers (built against
the separator chunk when a separator is declared, directly against the
one-occurrence entries otherwise). -/
theorem claim_c6 (arena : List Chunk) (content : List Group) (separator : Option Token)
    (rest : List Group) (attach_to : List Nat) (arena1 : List Chunk) (attach1 : List Nat)
    (h1 : create_chunks arena rest attach_to = (arena1, attach1)) :
    (create_chunks arena (Group.repetition content separator :: rest) attach_to).2 =
      attach1 ++ (create_chunks arena1 content attach1).2 ++
        (match separator with
         | some sep =>
           (create_chunks ((create_chunks arena1 content attach1).1 ++
              [Chunk.mk [sep] (create_chunks arena1 content attach1).2]) content
              [(create_chunks arena1 content attach1).1.length]).2
         | none =>
           (create_chunks (create_chunks arena1 content attach1).1 content
              (create_chunks arena1 content attach1).2).2) := by
  cases separator with
  | some sep =>
    rw [create_chunks_rep_some, h1]
  | none =>
    rw [create_chunks_rep_none, h1]

/-- Witness for C6 at an empty-body repetition processed against an empty
arena. -/
theorem claim_c6_witness :
    (create_chunks [] [Group.repetition [] none] []).2 =
      [] ++ (create_chunks [] [] []).2 ++
        (create_chunks (create_chunks [] [] []).1 [] (create_chunks [] [] []).2).2 :=
  claim_c6 [] [] none [] [] [] [] (create_chunks_nil [] [])

/-- C7 fails as stated: on `[$(),*]` — a repetition with an empty body and a
declared `,` separator — the builder's two-or-more-occurrence entry is the
separator chunk itself, and the arena contains no chunk carrying any body
token at all, so the complete two-or-more path `[1, 0]` (separator chunk `,`
directly to the continuation chunk `]`) does not pass through the separator
strictly between two content chunks.  The second conjunct isolates the
repetition step: with continuation `[0]`, the zero-, one- and two-plus
contributions are `[0]`, `[0]` and `[1]` — the two-plus entry `1` is the
separator chunk. -/
theorem claim_c7_counterexample :
    of "[$(),*]" = some (Except.ok (Chunks.mk
      [Chunk.mk [Token.closeSquare] [],
       Chunk.mk [Token.comma] [0],
       Chunk.mk [Token.openSquare] [0, 0, 1]]
      [2])) ∧
    create_chunks [Chunk.mk [Token.closeSquare] []]
        [Group.repetition [] (some Token.comma)] [0] =
      ([Chunk.mk [Token.closeSquare] [], Chunk.mk [Token.comma] [0]], [0, 0, 1]) ∧
    isWalk [Chunk.mk [Token.closeSquare] [], Chunk.mk [Token.comma] [0],
      Chunk.mk [Token.openSquare] [0, 0, 1]] [1, 0] = true ∧
    lastChildless [Chunk.mk [Token.closeSquare] [], Chunk.mk [Token.comma] [0],
      Chunk.mk [Token.openSquare] [0, 0, 1]] [1, 0] = true := by
  refine ⟨?_, ?_, rfl, rfl⟩
  · have hlex : lex "[$(),*]" = some [Token.openSquare, Token.dollar, Token.openParen,
        Token.closeParen, Token.comma, Token.star, Token.closeSquare] := rfl
    have hp : parse_tokenstream [Token.openSquare, Token.dollar, Token.openParen,
        Token.closeParen, Token.comma, Token.star, Token.closeSquare] =
        Except.ok [TokenTree.token Token.openSquare,
          TokenTree.repetition [] (some Token.comma),
          TokenTree.token Token.closeSquare] := rfl
    simp [of, hlex, of_tokens, hp, create_groups, create_groups_go, create_chunks]
  · rw [create_chunks_rep_some]
    simp [create_chunks_nil]

/-- C7, amended: whenever a repetition group declares a separator token, the
builder allocates a chunk whose token list is exactly that one separator
token and whose children are exactly the one-occurrence entry identifiers,
and the two-or-more-occurrence content is built attached to that separator
chunk alone (`attach_to = [identifier of the separator chunk]`); the final
arena still holds the separator chunk unchanged at its identifier, so the
separator always occupies its own single-token chunk, never merged into a
neighboring multi-token chunk.  Moreover, when the repetition body's
collapsed group sequence begins with a `simple` group (its first token tree
is a plain token), every complete two-or-more-occurrence path passes through
the separator chunk strictly between two content chunks: the one-occurrence
entries are a single content chunk `j1` of the first content build
(`arena1.length ≤ j1 < arena2.length`), the two-plus entries are a single
content chunk `j3` of the second content build (`arena2.length + 1 ≤ j3`, in
particular not the separator), and every complete walk from `j3` visits only
second-build content chunks until it reaches the separator chunk, whose
successor on the walk is the first-build content chunk `j1`. -/
theorem claim_c7 (arena : List Chunk) (content : List Group) (sep : Token)
    (rest : List Group) (attach_to : List Nat) (arena1 arena2 : List Chunk)
    (attach1 one : List Nat)
    (h1 : create_chunks arena rest attach_to = (arena1, attach1))
    (h2 : create_chunks arena1 content attach1 = (arena2, one)) :
    create_chunks arena (Group.repetition content (some sep) :: rest) attach_to =
      ((create_chunks (arena2 ++ [Chunk.mk [sep] one]) content [arena2.length]).1,
       attach1 ++ one ++
         (create_chunks (arena2 ++ [Chunk.mk [sep] one]) content [arena2.length]).2) ∧
    (create_chunks arena
        (Group.repetition content (some sep) :: rest) attach_to).1[arena2.length]? =
      some (Chunk.mk [sep] one) ∧
    (headSimple content = true →
      ∃ j1 j3,
        one = [j1] ∧ arena1.length ≤ j1 ∧ j1 < arena2.length ∧
        (create_chunks (arena2 ++ [Chunk.mk [sep] one]) content [arena2.length]).2 =
          [j3] ∧
        arena2.length + 1 ≤ j3 ∧
        (∀ w : List Nat,
          isWalk (create_chunks (arena2 ++ [Chunk.mk [sep] one]) content
              [arena2.length]).1 w = true →
          w.head? = some j3 →
          lastChildless (create_chunks (arena2 ++ [Chunk.mk [sep] one]) content
              [arena2.length]).1 w = true →
          ∃ pre post, w = pre ++ arena2.length :: post ∧ pre ≠ [] ∧
            (∀ x ∈ pre, arena2.length + 1 ≤ x) ∧ post.head? = some j1)) := by
  have heq : create_chunks arena (Group.repetition content (some sep) :: rest) attach_to =
      ((create_chunks (arena2 ++ [Chunk.mk [sep] one]) content [arena2.length]).1,
       attach1 ++ one ++
         (create_chunks (arena2 ++ [Chunk.mk [sep] one]) content [arena2.length]).2) := by
    rw [create_chunks_rep_some, h1]
    dsimp only
    rw [h2]
  have hsepchunk : (create_chunks arena
      (Group.repetition content (some sep) :: rest) attach_to).1[arena2.length]? =
      some (Chunk.mk [sep] one) := by
    rw [heq]
    dsimp only
    rw [create_chunks_getElem_stable content (arena2 ++ [Chunk.mk [sep] one])
      [arena2.length] arena2.length (by simp)]
    simp
  refine ⟨heq, hsepchunk, ?_⟩
  intro hhead
  obtain ⟨j1, hj1ge, hj1lt, hone⟩ := create_chunks_headSimple content arena1 attach1 hhead
  rw [h2] at hj1lt hone
  dsimp only at hj1lt hone
  obtain ⟨j3, hj3ge, hj3lt, htwo⟩ := create_chunks_headSimple content
    (arena2 ++ [Chunk.mk [sep] one]) [arena2.length] hhead
  simp only [List.length_append, List.length_cons, List.length_nil] at hj3ge
  refine ⟨j1, j3, hone, hj1ge, hj1lt, htwo, by omega, ?_⟩
  intro w hw hwhead hwlast
  refine walk_split
    (create_chunks (arena2 ++ [Chunk.mk [sep] one]) content [arena2.length]).1
    arena2.length j1 ?_ ?_ ?_ w j3 hw hwhead (by omega) hwlast
  · intro ch hch
    rw [create_chunks_getElem_stable content (arena2 ++ [Chunk.mk [sep] one])
      [arena2.length] arena2.length (by simp)] at hch
    rw [List.getElem?_append_right (le_refl arena2.length)] at hch
    simp only [Nat.sub_self] at hch
    simp only [List.getElem?_cons_zero, Option.some.injEq] at hch
    rw [← hch]
    dsimp only
    exact hone
  · intro a ch hch hge c hc
    have := (create_chunks_scope content (arena2 ++ [Chunk.mk [sep] one])
      [arena2.length]).2 a ch hch (by simpa using hge) c hc
    rcases this with hc2 | hc2
    · left
      simpa using hc2
    · right
      simpa using hc2
  · intro a ch hch hge
    exact (create_chunks_childs_nonempty content (arena2 ++ [Chunk.mk [sep] one])
      [arena2.length] (by simp)).2 a ch hch (by simpa using hge)

/-- Witness for C7: a one-token body with a comma separator, against an empty
arena.  The body `1` starts with a plain token, so the path clause applies:
the one-occurrence entry is chunk 0 (`1`), the separator chunk is chunk 1
(`,`), the two-plus entry is chunk 2 (`1` again), and every complete walk
from chunk 2 passes through chunk 1 right between chunks 2 and 0. -/
theorem claim_c7_witness :
    (create_chunks []
        [Group.repetition [Group.simple [Token.number 1]] (some Token.comma)] [] =
      ((create_chunks [Chunk.mk [Token.number 1] [], Chunk.mk [Token.comma] [0]]
          [Group.simple [Token.number 1]] [1]).1,
       [] ++ [0] ++
         (create_chunks [Chunk.mk [Token.number 1] [], Chunk.mk [Token.comma] [0]]
            [Group.simple [Token.number 1]] [1]).2)) ∧
    ((create_chunks []
        [Group.repetition [Group.simple [Token.number 1]] (some Token.comma)] []).1[
        (1 : Nat)]? = some (Chunk.mk [Token.comma] [0])) ∧
    (∃ j1 j3,
      ([0] : List Nat) = [j1] ∧ (0 : Nat) ≤ j1 ∧ j1 < 1 ∧
      (create_chunks [Chunk.mk [Token.number 1] [], Chunk.mk [Token.comma] [0]]
          [Group.simple [Token.number 1]] [1]).2 = [j3] ∧
      2 ≤ j3 ∧
      (∀ w : List Nat,
        isWalk (create_chunks [Chunk.mk [Token.number 1] [], Chunk.mk [Token.comma] [0]]
            [Group.simple [Token.number 1]] [1]).1 w = true →
        w.head? = some j3 →
        lastChildless (create_chunks [Chunk.mk [Token.number 1] [],
            Chunk.mk [Token.comma] [0]] [Group.simple [Token.number 1]] [1]).1 w = true →
        ∃ pre post, w = pre ++ 1 :: post ∧ pre ≠ [] ∧
          (∀ x ∈ pre, 2 ≤ x) ∧ post.head? = some j1)) := by
  have h := claim_c7 [] [Group.simple [Token.number 1]] Token.comma [] []
    [] [Chunk.mk [Token.number 1] []] [] [0]
    (create_chunks_nil [] [])
    (by rw [create_chunks_simple]
        simp [create_chunks_nil])
  exact ⟨h.1, h.2.1, h.2.2 rfl⟩

/-- C8: the group collapser is total (it is a plain function in this
development), its output never contains two adjacent `simple` groups, every
`simple` group it emits carries a non-empty token run, the repetition
skeleton (nesting depth and separators) is preserved exactly, and flattening
the output groups yields the same token sequence as flattening the input
trees. -/
theorem claim_c8 (stream : List TokenTree) :
    no_adjacent (create_groups stream) = true ∧
    simples_nonempty (create_groups stream) = true ∧
    groupsSkel (create_groups stream) = treesSkel stream ∧
    flattenGroups (create_groups stream) = flattenTrees stream := by
  rw [create_groups]
  refine ⟨no_adjacent_go stream [], simples_nonempty_go stream [], groupsSkel_go stream [], ?_⟩
  have := flattenGroups_go stream []
  simpa using this

end Parsibes
